import Mathlib

/-!
Verification of the LC3370 bit-manipulation program
(src/3-pipeline/csrc/LC3370.c).

The program consists of
* `clz` — count leading zeros of a 32-bit unsigned word, by a
  binary-search shrink with strides 16, 8, 4, 2, 1;
* `smallestNumber` — `(1 << (32 - clz n)) - 1`, the all-ones mask of
  `n`'s bit width, computed in 32-bit arithmetic;
* `main` — writes `smallestNumber` of 1, 509 and 1000 to the memory
  words at byte offsets 4, 8 and 12.

Machine words are embedded as `Nat` with explicit `% 2^32` where the
32-bit arithmetic matters.  The source loop
`do { ... c >>= 1; } while (c);` is embedded as the recursion
`clzLoop`, which executes the body at the current stride and then
recurses on the halved stride while it is nonzero.
-/

/-- One round of the `clz` do-while loop body from the source:
`y = x >> c; if (y) { n -= c; x = y; }` acting on the state `(n, x)`. -/
def clzStep (s : Nat × Nat) (c : Nat) : Nat × Nat :=
  let y := s.2 >>> c
  if y ≠ 0 then (s.1 - c, y) else s

/-- The do-while loop of `clz`: run the body at stride `c`, halve the
stride (`c >>= 1`), and continue while the stride is nonzero. -/
def clzLoop (c : Nat) (s : Nat × Nat) : Nat × Nat :=
  let s' := clzStep s c
  let c' := c >>> 1
  if h : c' = 0 then s' else clzLoop c' s'
  termination_by c
  decreasing_by
    simp only [Nat.shiftRight_succ, Nat.shiftRight_zero] at *
    omega

/-- `clz` from the source: state starts at `n = 32, c = 16`; after the
loop the result is `n - x`. -/
def clz (x : Nat) : Nat :=
  let s := clzLoop 16 (32, x)
  s.1 - s.2

/-- The same computation with the stride sequence laid out explicitly:
five rounds at strides 16, 8, 4, 2, 1. -/
def clzRounds (x : Nat) : Nat :=
  let s := List.foldl clzStep (32, x) [16, 8, 4, 2, 1]
  s.1 - s.2

/-- `smallestNumber` from the source: `(1 << (32 - clz(n))) - 1`,
taken modulo `2^32` (the value is held in a 32-bit register). -/
def smallestNumber (n : Nat) : Nat :=
  ((1 <<< (32 - clz n)) - 1) % 2 ^ 32

/-- The three stores performed by `main`, in program order, as
(byte offset, stored word) pairs.  `main` performs no other output. -/
def mainWrites : List (Nat × Nat) :=
  [(4, smallestNumber 1), (8, smallestNumber 509), (12, smallestNumber 1000)]

/-! ### The loop runs exactly the strides 16, 8, 4, 2, 1 -/

lemma clzLoop_unroll (s : Nat × Nat) :
    clzLoop 16 s = List.foldl clzStep s [16, 8, 4, 2, 1] := by
  rw [clzLoop, clzLoop, clzLoop, clzLoop, clzLoop]
  simp [List.foldl]

lemma clz_eq_clzRounds (x : Nat) : clz x = clzRounds x := by
  rw [clz, clzRounds, clzLoop_unroll]

/-! ### Size bookkeeping for the shrink rounds -/

lemma shiftRight_eq_zero_iff_size_le (x c : Nat) :
    x >>> c = 0 ↔ Nat.size x ≤ c := by
  rw [Nat.shiftRight_eq_div_pow, Nat.div_eq_zero_iff (Nat.pos_pow_of_pos c (by norm_num)),
    ← Nat.size_le]

lemma size_shiftRight (x c : Nat) :
    Nat.size (x >>> c) = Nat.size x - c := by
  rw [Nat.shiftRight_eq_div_pow]
  apply Nat.le_antisymm
  · rw [Nat.size_le]
    rcases le_or_lt (Nat.size x) c with h | h
    · have hx : x < 2 ^ c := lt_of_lt_of_le (Nat.lt_size_self x) (Nat.pow_le_pow_right (by norm_num) h)
      rw [Nat.div_eq_of_lt hx]
      exact Nat.pos_pow_of_pos _ (by norm_num)
    · have hx : x < 2 ^ (Nat.size x - c) * 2 ^ c := by
        rw [← pow_add, Nat.sub_add_cancel (Nat.le_of_lt h)]
        exact Nat.lt_size_self x
      exact Nat.div_lt_of_lt_mul (by rwa [Nat.mul_comm] at hx)
  · rw [Nat.sub_le_iff_le_add, Nat.size_le, pow_add]
    calc x < 2 ^ c * (x / 2 ^ c) + 2 ^ c := by
            have := Nat.div_add_mod x (2 ^ c)
            have hm : x % 2 ^ c < 2 ^ c := Nat.mod_lt _ (Nat.pos_pow_of_pos _ (by norm_num))
            omega
      _ = 2 ^ c * (x / 2 ^ c + 1) := by ring
      _ ≤ 2 ^ c * 2 ^ Nat.size (x / 2 ^ c) := by
            exact Nat.mul_le_mul_left _ (Nat.lt_size_self _)
      _ = 2 ^ Nat.size (x / 2 ^ c) * 2 ^ c := by ring

/-- Invariant of a single shrink round: the remaining value stays
positive, its size drops below the stride, and `n` keeps accounting for
the bits discarded so far. -/
lemma clzStep_inv (c n x s0 : Nat) (hx : 0 < x)
    (hsz : Nat.size x ≤ 2 * c) (hn : n + s0 = 32 + Nat.size x) (hs0 : s0 ≤ 32) :
    0 < (clzStep (n, x) c).2 ∧ Nat.size (clzStep (n, x) c).2 ≤ c ∧
      (clzStep (n, x) c).1 + s0 = 32 + Nat.size (clzStep (n, x) c).2 := by
  rw [clzStep]
  by_cases hy : x >>> c = 0
  · have hle : Nat.size x ≤ c := (shiftRight_eq_zero_iff_size_le x c).mp hy
    simp only [hy, ne_eq, not_true_eq_false, if_neg, not_false_eq_true, if_false]
    exact ⟨hx, hle, hn⟩
  · have hgt : c < Nat.size x := by
      by_contra hcon
      exact hy ((shiftRight_eq_zero_iff_size_le x c).mpr (Nat.le_of_not_lt hcon))
    have hsy : Nat.size (x >>> c) = Nat.size x - c := size_shiftRight x c
    simp only [ne_eq, hy, not_false_eq_true, if_true, if_pos]
    refine ⟨Nat.pos_of_ne_zero hy, ?_, ?_⟩
    · rw [hsy]; omega
    · simp only [hsy]; omega

/-- The five shrink rounds compute `32 - Nat.size x` for any nonzero
32-bit input. -/
lemma clz_eq_size (x : Nat) (hx : 0 < x) (hx32 : x < 2 ^ 32) :
    clz x = 32 - Nat.size x := by
  have hs0 : Nat.size x ≤ 32 := Nat.size_le.mpr hx32
  have h16 := clzStep_inv 16 32 x (Nat.size x) hx (by omega) (by omega) hs0
  set s1 := clzStep (32, x) 16 with hs1
  have h8 := clzStep_inv 8 s1.1 s1.2 (Nat.size x) h16.1 (by omega) (by omega) hs0
  set s2 := clzStep (s1.1, s1.2) 8 with hs2
  have h4 := clzStep_inv 4 s2.1 s2.2 (Nat.size x) h8.1 (by omega) (by omega) hs0
  set s3 := clzStep (s2.1, s2.2) 4 with hs3
  have h2 := clzStep_inv 2 s3.1 s3.2 (Nat.size x) h4.1 (by omega) (by omega) hs0
  set s4 := clzStep (s3.1, s3.2) 2 with hs4
  have h1 := clzStep_inv 1 s4.1 s4.2 (Nat.size x) h2.1 (by omega) (by omega) hs0
  set s5 := clzStep (s4.1, s4.2) 1 with hs5
  have hfin : s5.2 = 1 := by
    have hlt : s5.2 < 2 := by
      have := Nat.lt_size_self s5.2
      calc s5.2 < 2 ^ Nat.size s5.2 := Nat.lt_size_self s5.2
        _ ≤ 2 ^ 1 := Nat.pow_le_pow_right (by norm_num) h1.2.1
        _ = 2 := by norm_num
    omega
  have hn5 : s5.1 + Nat.size x = 33 := by
    have := h1.2.2
    rw [hfin, Nat.size_one] at this
    omega
  rw [clz_eq_clzRounds, clzRounds]
  simp only [List.foldl]
  have : clzStep (clzStep (clzStep (clzStep (clzStep (32, x) 16) 8) 4) 2) 1 = s5 := by
    rw [hs5, hs4, hs3, hs2, hs1]
  rw [this, hfin]
  omega

/-- For nonzero 32-bit `x`, `clz` agrees with `32 - bit_length`. -/
lemma clz_add_size (x : Nat) (hx : 0 < x) (hx32 : x < 2 ^ 32) :
    clz x + Nat.size x = 32 := by
  have h1 : 0 < Nat.size x := Nat.size_pos.mpr hx
  have h2 : Nat.size x ≤ 32 := Nat.size_le.mpr hx32
  rw [clz_eq_size x hx hx32]
  omega

/-- The ceiling log matches `Nat.size`: `⌈log2 (n+1)⌉ = bit_length n`. -/
lemma clog_two_succ_eq_size (n : Nat) :
    Nat.clog 2 (n + 1) = Nat.size n := by
  apply Nat.le_antisymm
  · rw [← Nat.le_pow_iff_clog_le (by norm_num)]
    exact Nat.lt_size_self n
  · rw [Nat.size_le, ← Nat.succ_le_iff]
    exact Nat.le_pow_clog (by norm_num) (n + 1)

/-- Closed form of `smallestNumber` on the defined domain: the all-ones
mask of `n`'s bit width. -/
lemma smallestNumber_eq (n : Nat) (h1 : 0 < n) (h2 : n < 2 ^ 31) :
    smallestNumber n = 2 ^ Nat.size n - 1 := by
  have hsz : Nat.size n ≤ 31 := Nat.size_le.mpr h2
  have hclz : clz n = 32 - Nat.size n :=
    clz_eq_size n h1 (lt_trans h2 (by norm_num))
  have hpos : 0 < Nat.size n := Nat.size_pos.mpr h1
  rw [smallestNumber, hclz]
  have hexp : 32 - (32 - Nat.size n) = Nat.size n := by omega
  rw [hexp, Nat.shiftLeft_eq, one_mul]
  apply Nat.mod_eq_of_lt
  have : 2 ^ Nat.size n ≤ 2 ^ 31 := Nat.pow_le_pow_right (by norm_num) hsz
  omega

/-- The size of an all-ones mask: `Nat.size (2^k - 1) = k`. -/
lemma size_pow_sub_one (k : Nat) (hk : 0 < k) :
    Nat.size (2 ^ k - 1) = k := by
  have hpow : 0 < 2 ^ k := Nat.pos_pow_of_pos k (by norm_num)
  apply Nat.le_antisymm
  · rw [Nat.size_le]
    omega
  · have h1 : 2 ^ (k - 1) < 2 ^ k :=
      Nat.pow_lt_pow_right (by norm_num) (by omega)
    have h3 : k - 1 < Nat.size (2 ^ k - 1) := Nat.lt_size.mpr (by omega)
    omega

/-- All-ones masks are fixed points of `smallestNumber`. -/
lemma smallestNumber_mask_fixed (k : Nat) (h1 : 1 ≤ k) (h2 : k ≤ 31) :
    smallestNumber (2 ^ k - 1) = 2 ^ k - 1 := by
  have hk1 : 1 ≤ 2 ^ k - 1 := by
    have : 2 ^ 1 ≤ 2 ^ k := Nat.pow_le_pow_right (by norm_num) h1
    omega
  have hk2 : 2 ^ k - 1 < 2 ^ 31 := by
    have : 2 ^ k ≤ 2 ^ 31 := Nat.pow_le_pow_right (by norm_num) h2
    omega
  rw [smallestNumber_eq _ hk1 hk2, size_pow_sub_one k (by omega)]

/-- Evaluation form of `smallestNumber` through the unrolled rounds,
usable for concrete inputs. -/
lemma smallestNumber_eval (n : Nat) :
    smallestNumber n = ((1 <<< (32 - clzRounds n)) - 1) % 2 ^ 32 := by
  rw [smallestNumber, clz_eq_clzRounds]

/-! ### Claims -/

/-- C1: for every `n` with `1 ≤ n < 2^31`, `smallestNumber n` returns
`(1 <<< (32 - clz n)) - 1`, which equals `2^⌈log2 (n+1)⌉ - 1`, the
all-ones mask of `n`'s bit width, computed in 32-bit arithmetic. -/
theorem smallestNumber_formula (n : Nat) (h1 : 1 ≤ n) (h2 : n < 2 ^ 31) :
    smallestNumber n = (1 <<< (32 - clz n)) - 1 ∧
      smallestNumber n = 2 ^ Nat.clog 2 (n + 1) - 1 := by
  have hclz : clz n = 32 - Nat.size n :=
    clz_eq_size n h1 (lt_trans h2 (by norm_num))
  have hsz : Nat.size n ≤ 31 := Nat.size_le.mpr h2
  have hpos : 0 < Nat.size n := Nat.size_pos.mpr h1
  have hmain := smallestNumber_eq n h1 h2
  constructor
  · rw [hmain, hclz]
    have hexp : 32 - (32 - Nat.size n) = Nat.size n := by omega
    rw [hexp, Nat.shiftLeft_eq, one_mul]
  · rw [hmain, clog_two_succ_eq_size]

/-- Witness for C1 at `n = 509`. -/
theorem smallestNumber_formula_witness :
    1 ≤ 509 ∧ 509 < 2 ^ 31 ∧
      (smallestNumber 509 = (1 <<< (32 - clz 509)) - 1 ∧
        smallestNumber 509 = 2 ^ Nat.clog 2 (509 + 1) - 1) :=
  ⟨by decide, by decide, smallestNumber_formula 509 (by decide) (by decide)⟩

/-- C2, counterexample: `smallestNumber 3 = 3`, not `7` as claimed;
exact-mask inputs do not round up to the next mask. -/
theorem smallestNumber_three_ne_seven :
    smallestNumber 3 = 3 ∧ ¬ smallestNumber 3 = 7 := by
  rw [smallestNumber_eval]
  decide

/-- C2, amended: for every `n` of the form `2^k - 1` with `k ≥ 2` and
`n < 2^31`, `smallestNumber n` returns `2^k - 1 = n` itself (exact
masks are fixed points), not `2^(k+1) - 1`. -/
theorem smallestNumber_exact_mask_fixed (k : Nat) (h1 : 2 ≤ k)
    (h2 : 2 ^ k - 1 < 2 ^ 31) :
    smallestNumber (2 ^ k - 1) = 2 ^ k - 1 := by
  have hk31 : k ≤ 31 := by
    by_contra hcon
    have h32 : 2 ^ 32 ≤ 2 ^ k := Nat.pow_le_pow_right (by norm_num) (by omega)
    have : (2 : Nat) ^ 31 < 2 ^ 32 := by norm_num
    omega
  exact smallestNumber_mask_fixed k (by omega) hk31

/-- Witness for amended C2 at `k = 2` (`n = 3`). -/
theorem smallestNumber_exact_mask_fixed_witness :
    2 ≤ 2 ∧ 2 ^ 2 - 1 < 2 ^ 31 ∧ smallestNumber (2 ^ 2 - 1) = 2 ^ 2 - 1 :=
  ⟨by decide, by decide, smallestNumber_exact_mask_fixed 2 (by decide) (by decide)⟩

/-- C3: `main` performs exactly three stores, in program order, putting
1, 511 and 1023 into the words at byte offsets 4, 8 and 12. -/
theorem mainWrites_spec : mainWrites = [(4, 1), (8, 511), (12, 1023)] := by
  simp only [mainWrites, smallestNumber_eval]
  decide

/-- C4: for every 32-bit `x ≠ 0`, `clz x + bit_length x = 32`
(with `bit_length = Nat.size`, the highest set bit position plus one);
equivalently `2^(31 - clz x) ≤ x < 2^(32 - clz x)`. -/
theorem clz_size_correct (x : Nat) (h1 : x ≠ 0) (h2 : x < 2 ^ 32) :
    clz x + Nat.size x = 32 ∧ 2 ^ (31 - clz x) ≤ x ∧ x < 2 ^ (32 - clz x) := by
  have hx : 0 < x := Nat.pos_of_ne_zero h1
  have hsz : Nat.size x ≤ 32 := Nat.size_le.mpr h2
  have hpos : 0 < Nat.size x := Nat.size_pos.mpr hx
  have hclz : clz x = 32 - Nat.size x := clz_eq_size x hx h2
  refine ⟨clz_add_size x hx h2, ?_, ?_⟩
  · have h31 : 31 - clz x = Nat.size x - 1 := by omega
    rw [h31]
    exact Nat.lt_size.mp (by omega)
  · have h32 : 32 - clz x = Nat.size x := by omega
    rw [h32]
    exact Nat.lt_size_self x

/-- Witness for C4 at `x = 1000`. -/
theorem clz_size_correct_witness :
    (1000 : Nat) ≠ 0 ∧ 1000 < 2 ^ 32 ∧
      (clz 1000 + Nat.size 1000 = 32 ∧
        2 ^ (31 - clz 1000) ≤ 1000 ∧ 1000 < 2 ^ (32 - clz 1000)) :=
  ⟨by decide, by decide, clz_size_correct 1000 (by decide) (by decide)⟩

/-- C5: `clz 0 = 32`, and for every 32-bit `x` the result of `clz`
lies in `[0, 32]` (the lower bound is inherent in `Nat`). -/
theorem clz_range : clz 0 = 32 ∧ ∀ x : Nat, x < 2 ^ 32 → clz x ≤ 32 := by
  constructor
  · rw [clz_eq_clzRounds]
    decide
  · intro x hx
    rcases Nat.eq_zero_or_pos x with h | h
    · subst h
      rw [clz_eq_clzRounds]
      decide
    · rw [clz_eq_size x h hx]
      omega

/-- Witness for C5 at `x = 12345`. -/
theorem clz_range_witness :
    clz 0 = 32 ∧ (12345 < 2 ^ 32 ∧ clz 12345 ≤ 32) :=
  ⟨clz_range.1, by decide, clz_range.2 12345 (by decide)⟩

/-- C6: the `clz` do-while loop is total and runs exactly 5 rounds, at
strides 16, 8, 4, 2, 1, independent of the state (hence of `x`). -/
theorem clzLoop_five_rounds :
    ∀ s : Nat × Nat, clzLoop 16 s = List.foldl clzStep s [16, 8, 4, 2, 1] :=
  clzLoop_unroll

/-- C7: `smallestNumber` is non-decreasing on `[1, 2^31 - 1]`. -/
theorem smallestNumber_monotone (m n : Nat) (h1 : 1 ≤ m) (h2 : m ≤ n)
    (h3 : n < 2 ^ 31) :
    smallestNumber m ≤ smallestNumber n := by
  rw [smallestNumber_eq m h1 (lt_of_le_of_lt h2 h3),
    smallestNumber_eq n (le_trans h1 h2) h3]
  have hsz := Nat.size_le_size h2
  have hpow := Nat.pow_le_pow_right (show 1 ≤ 2 by norm_num) hsz
  omega

/-- Witness for C7 at `m = 2, n = 5`. -/
theorem smallestNumber_monotone_witness :
    1 ≤ 2 ∧ 2 ≤ 5 ∧ 5 < 2 ^ 31 ∧ smallestNumber 2 ≤ smallestNumber 5 :=
  ⟨by decide, by decide, by decide,
    smallestNumber_monotone 2 5 (by decide) (by decide) (by decide)⟩

/-- C8: for every positive `n < 2^31`, `smallestNumber n + 1` is a
power of two. -/
theorem smallestNumber_succ_pow_two (n : Nat) (h1 : 0 < n) (h2 : n < 2 ^ 31) :
    ∃ k, smallestNumber n + 1 = 2 ^ k := by
  refine ⟨Nat.size n, ?_⟩
  rw [smallestNumber_eq n h1 h2]
  have hpow : 0 < 2 ^ Nat.size n := Nat.pos_pow_of_pos _ (by norm_num)
  omega

/-- Witness for C8 at `n = 6`. -/
theorem smallestNumber_succ_pow_two_witness :
    0 < 6 ∧ 6 < 2 ^ 31 ∧ ∃ k, smallestNumber 6 + 1 = 2 ^ k :=
  ⟨by decide, by decide, smallestNumber_succ_pow_two 6 (by decide) (by decide)⟩

/-- C9: `smallestNumber` is idempotent on `[1, 2^31 - 1]`: every output
`2^w - 1` is a fixed point. -/
theorem smallestNumber_idempotent (n : Nat) (h1 : 1 ≤ n) (h2 : n < 2 ^ 31) :
    smallestNumber (smallestNumber n) = smallestNumber n := by
  have hsz : Nat.size n ≤ 31 := Nat.size_le.mpr h2
  have hpos : 0 < Nat.size n := Nat.size_pos.mpr h1
  rw [smallestNumber_eq n h1 h2]
  exact smallestNumber_mask_fixed (Nat.size n) hpos hsz

/-- Witness for C9 at `n = 5`. -/
theorem smallestNumber_idempotent_witness :
    1 ≤ 5 ∧ 5 < 2 ^ 31 ∧ smallestNumber (smallestNumber 5) = smallestNumber 5 :=
  ⟨by decide, by decide, smallestNumber_idempotent 5 (by decide) (by decide)⟩

/-- C10: on the out-of-domain input `n = 0`, `smallestNumber 0 = 0`:
`clz 0 = 32` makes the shift amount 0, so the result is
`(1 <<< 0) - 1 = 0`. -/
theorem smallestNumber_zero : smallestNumber 0 = 0 := by
  rw [smallestNumber_eval]
  decide
